import Mathlib

set_option maxRecDepth 100000

/-!
Shallow embedding of the grabapic image-zipper core (src/app.py) and
verification of its specification claims.

Modelling conventions:
* Python strings are Lean `String`s; all character-level operations are
  implemented structurally over `String.data` so that they evaluate.
* Python byte strings are `List Nat` (each element a byte value).
* The regular-expression substitutions of `safe_filename`, the character
  classes of the patterns, and Python `str.strip` / `str.split` are
  implemented directly; `\w`, `\d` and `\s` are modelled at ASCII scope
  (every concrete input considered here is ASCII).
* External collaborators (the HTTP transport, the HTML parser) are inputs:
  a fetch is a function from URL to a transport outcome, and a fetched page
  carries the list of its image-bearing elements, as the spec's
  markup-parsing collaborator provides them.
-/

/-- ASCII whitespace characters, the scope of Python regex class backslash-s
and of `str.strip` / `str.split()` used in src/app.py. -/
def isPySpace (c : Char) : Bool :=
  c = ' ' || c = '\t' || c = '\n' || c = '\r' || c = '\x0b' || c = '\x0c'

/-- ASCII scope of Python regex class backslash-w: letters, digits, underscore. -/
def isPyWordChar (c : Char) : Bool :=
  c.isAlpha || c.isDigit || c = '_'

/-- ASCII decimal digit. -/
def isPyDigit (c : Char) : Bool :=
  '0' ≤ c && c ≤ '9'

/-- Python `str.strip()`: drop whitespace from both ends. -/
def pyStrip (l : List Char) : List Char :=
  ((l.dropWhile isPySpace).reverse.dropWhile isPySpace).reverse

/-- Substitute every maximal run of characters satisfying `p` by a single
underscore: the effect of Python `re.sub(pattern-plus, "_", s)` for a
character-class pattern. The flag records whether the previous character
was inside a run. -/
def subRuns (p : Char → Bool) : List Char → Bool → List Char
  | [], _ => []
  | c :: rest, inRun =>
    if p c then
      if inRun then subRuns p rest true else '_' :: subRuns p rest true
    else c :: subRuns p rest false

/-- Characters the first substitution of `safe_filename` keeps: the regex
class of word characters, hyphen, dot and space. -/
def isKeptChar (c : Char) : Bool :=
  isPyWordChar c || c = '-' || c = '.' || c = ' '

/-- The two substitution passes of `safe_filename` after stripping: first
every run outside the kept class becomes one underscore, then every
whitespace run becomes one underscore. -/
def sanitizeCore (name : String) : List Char :=
  subRuns isPySpace (subRuns (fun c => !(isKeptChar c)) (pyStrip name.data) false) false

/-- Embedding of `safe_filename` from src/app.py: strip, substitute
disallowed-character runs and whitespace runs by underscores, substitute the
fallback when empty, truncate to 180 characters. -/
def safe_filename (name : String) (fallback : String := "image") : String :=
  let n := sanitizeCore name
  let n := if n.isEmpty then fallback.data else n
  ⟨n.take 180⟩

/-! ### Decimal rendering of naturals (Python f-string `{i}` interpolation) -/

/-- Decimal digits of `n`, least significant first, by fuel recursion so that
the kernel can evaluate it. The fuel is always called with at least `n + 1`. -/
def digitsLSBFuel : Nat → Nat → List Nat
  | 0, _ => []
  | fuel+1, n => if n < 10 then [n] else n % 10 :: digitsLSBFuel fuel (n / 10)

/-- Decimal digits of `n`, least significant first. -/
def digitsLSB (n : Nat) : List Nat := digitsLSBFuel (n + 1) n

/-- Value of a least-significant-first digit list. -/
def valLSB : List Nat → Nat
  | [] => 0
  | d :: ds => d + 10 * valLSB ds

/-- Decimal rendering of a natural number, as Python string interpolation
produces it. -/
def decimalStr (n : Nat) : String :=
  ⟨(digitsLSB n).reverse.map (fun d => Char.ofNat (48 + d))⟩

/-! ### Small Python string primitives over char lists -/

/-- Python `s.split(sep)` for a one-character separator: empty input yields
one empty field, adjacent separators yield empty fields. -/
def splitOnChar (sep : Char) : List Char → List (List Char)
  | [] => [[]]
  | c :: rest =>
    let r := splitOnChar sep rest
    if c = sep then [] :: r
    else
      match r with
      | [] => [[c]]
      | h :: t => (c :: h) :: t

/-- Helper for whitespace splitting: `acc` is the current word, reversed. -/
def pySplitWsAux : List Char → List Char → List (List Char)
  | [], acc => if acc.isEmpty then [] else [acc.reverse]
  | c :: rest, acc =>
    if isPySpace c then
      if acc.isEmpty then pySplitWsAux rest [] else acc.reverse :: pySplitWsAux rest []
    else pySplitWsAux rest (c :: acc)

/-- Python `s.split()` with no argument: split on whitespace runs, dropping
empty fields. -/
def pySplitWs (l : List Char) : List (List Char) := pySplitWsAux l []

/-- ASCII lowercasing of one character, the scope of Python `str.lower()`
needed here. -/
def lowerChar (c : Char) : Char :=
  if 65 ≤ c.toNat && c.toNat ≤ 90 then Char.ofNat (c.toNat + 32) else c

/-- ASCII `str.lower()`. -/
def toLowerList (l : List Char) : List Char := l.map lowerChar

/-- Does the char list start with the given pattern. -/
def listStartsWith : List Char → List Char → Bool
  | _, [] => true
  | [], _ :: _ => false
  | c :: cs, p :: ps => c = p && listStartsWith cs ps

/-- Does the char list end with the given pattern. -/
def listEndsWith (l pat : List Char) : Bool :=
  listStartsWith l.reverse pat.reverse

/-! ### Descriptor Selector: `pick_best_from_srcset` -/

/-- Numeric value of a nonempty ASCII digit list (Python `int(...)`). -/
def valDigits (l : List Char) : Nat :=
  l.foldl (fun a c => 10 * a + (c.toNat - 48)) 0

/-- Full match of one srcset size token against the pattern
digits-plus followed by `w` or `x` and end of string, returning the
integer of the digit group; `none` when the token does not match. -/
def parseWidthTok (tok : List Char) : Option Nat :=
  let digits := tok.takeWhile isPyDigit
  let rest := tok.dropWhile isPyDigit
  if digits.isEmpty then none
  else
    match rest with
    | [c] => if c = 'w' || c = 'x' then some (valDigits digits) else none
    | _ => none

/-- The `(width, url)` candidate pairs collected by the loop of
`pick_best_from_srcset`: comma fields are stripped, empty fields skipped,
the first whitespace token is the url and a second token, when it matches
the width pattern, gives the width (0 otherwise). -/
def srcsetCandidates : List (List Char) → List (Nat × List Char)
  | [] => []
  | part :: rest =>
    let p := pyStrip part
    if p.isEmpty then srcsetCandidates rest
    else
      let bits := pySplitWs p
      let url := pyStrip (bits.headD [])
      let w :=
        match bits with
        | _ :: b1 :: _ => (parseWidthTok (pyStrip b1)).getD 0
        | _ => 0
      (w, url) :: srcsetCandidates rest

/-- Stable insertion of `x` after every element whose width key is at most
`x`'s: building block of the stable ascending sort below. -/
def insertByW (x : Nat × List Char) : List (Nat × List Char) → List (Nat × List Char)
  | [] => [x]
  | y :: ys => if y.1 ≤ x.1 then y :: insertByW x ys else x :: y :: ys

/-- Python `list.sort(key=width)`: a stable ascending sort by the width
component. -/
def pySortByW (l : List (Nat × List Char)) : List (Nat × List Char) :=
  l.foldl (fun acc x => insertByW x acc) []

/-- Selection step: keep the later candidate on greater-or-equal width.
Folding it over the candidates yields the last candidate of maximum
width — the element the stable sort puts last. -/
def lastMaxStep (o : Option (Nat × List Char)) (c : Nat × List Char) : Option (Nat × List Char) :=
  match o with
  | none => some c
  | some d => some (if d.1 ≤ c.1 then c else d)

/-- The last candidate of maximum width, in parse order. -/
def lastMaxFold (l : List (Nat × List Char)) : Option (Nat × List Char) :=
  l.foldl lastMaxStep none

/-- Embedding of `pick_best_from_srcset` from src/app.py: parse the
comma-separated candidates, stable-sort by width ascending, return the url
of the last one; `None` for an empty or unparseable descriptor set. -/
def pick_best_from_srcset (srcset : String) : Option String :=
  if srcset.data.isEmpty then none
  else
    let candidates := srcsetCandidates (splitOnChar ',' srcset.data)
    if candidates.isEmpty then none
    else ((pySortByW candidates).getLast?).map (fun t => (⟨t.2⟩ : String))

/-! ### Extension handling -/

/-- Embedding of `IMG_EXTS` from src/app.py (iteration order is irrelevant:
the set is only consulted through `any`). -/
def IMG_EXTS : List String :=
  [".jpg", ".jpeg", ".png", ".gif", ".webp", ".bmp", ".tif", ".tiff", ".svg", ".avif"]

/-- Embedding of `guess_ext_from_content_type` from src/app.py: lowercase,
drop parameters after a semicolon, strip, then look up the mapping, with
empty-string default. -/
def guess_ext_from_content_type (ct : String) : String :=
  let c : List Char := pyStrip ((splitOnChar ';' (toLowerList ct.data)).headD [])
  if c = "image/jpeg".data then ".jpg"
  else if c = "image/jpg".data then ".jpg"
  else if c = "image/png".data then ".png"
  else if c = "image/gif".data then ".gif"
  else if c = "image/webp".data then ".webp"
  else if c = "image/avif".data then ".avif"
  else if c = "image/svg+xml".data then ".svg"
  else if c = "image/bmp".data then ".bmp"
  else if c = "image/tiff".data then ".tiff"
  else ""

/-! ### SHA-256 (the `hashlib.sha256(...).hexdigest()` collaborator),
implemented over `Nat` with explicit reduction modulo 2^32. -/

/-- 2^32, the word modulus of SHA-256. -/
def M32 : Nat := 4294967296

/-- Rotate a 32-bit word right by `n` positions. -/
def rotr32 (n x : Nat) : Nat :=
  ((x >>> n) ||| (x <<< (32 - n))) % M32

/-- Round constant table of the SHA-256 compression function, in decimal. -/
def shaK : List Nat :=
  [1116352408, 1899447441, 3049323471, 3921009573, 961987163, 1508970993,
   2453635748, 2870763221, 3624381080, 310598401, 607225278, 1426881987,
   1925078388, 2162078206, 2614888103, 3248222580, 3835390401, 4022224774,
   264347078, 604807628, 770255983, 1249150122, 1555081692, 1996064986,
   2554220882, 2821834349, 2952996808, 3210313671, 3336571891, 3584528711,
   113926993, 338241895, 666307205, 773529912, 1294757372, 1396182291,
   1695183700, 1986661051, 2177026350, 2456956037, 2730485921, 2820302411,
   3259730800, 3345764771, 3516065817, 3600352804, 4094571909, 275423344,
   430227734, 506948616, 659060556, 883997877, 958139571, 1322822218,
   1537002063, 1747873779, 1955562222, 2024104815, 2227730452, 2361852424,
   2428436474, 2756734187, 3204031479, 3329325298]

/-- Initial hash state of SHA-256, in decimal. -/
def shaH0 : List Nat :=
  [1779033703, 3144134277, 1013904242, 2773480762,
   1359893119, 2600822924, 528734635, 1541459225]

/-- Big-endian byte rendering of `n` on `k` bytes. -/
def natToBytesBE : Nat → Nat → List Nat
  | 0, _ => []
  | k+1, n => natToBytesBE k (n / 256) ++ [n % 256]

/-- Group bytes into big-endian 32-bit words. -/
def bytesToWordsBE : List Nat → List Nat
  | b0 :: b1 :: b2 :: b3 :: rest => (((b0 * 256 + b1) * 256 + b2) * 256 + b3) :: bytesToWordsBE rest
  | _ => []

/-- SHA-256 message padding: a 0x80 byte, zeros to 56 mod 64, and the
bit length on 8 big-endian bytes. -/
def shaPad (msg : List Nat) : List Nat :=
  let L := msg.length
  let z := (120 - ((L + 1) % 64)) % 64
  msg ++ 0x80 :: (List.replicate z 0 ++ natToBytesBE 8 ((8 * L) % (2 ^ 64)))

/-- One extension step of the SHA-256 message schedule. -/
def shaExtendStep (w : List Nat) : List Nat :=
  let i := w.length
  let w15 := w.getD (i - 15) 0
  let w2 := w.getD (i - 2) 0
  let s0 := (rotr32 7 w15) ^^^ (rotr32 18 w15) ^^^ (w15 >>> 3)
  let s1 := (rotr32 17 w2) ^^^ (rotr32 19 w2) ^^^ (w2 >>> 10)
  w ++ [(w.getD (i - 16) 0 + s0 + w.getD (i - 7) 0 + s1) % M32]

/-- The 64-word SHA-256 message schedule of one block. -/
def shaSchedule (w16 : List Nat) : List Nat :=
  (List.range 48).foldl (fun acc _ => shaExtendStep acc) w16

/-- One SHA-256 compression round on the 8-word working state. -/
def shaRound (ws : List Nat) (st : List Nat) (t : Nat) : List Nat :=
  let a := st.getD 0 0
  let b := st.getD 1 0
  let c := st.getD 2 0
  let d := st.getD 3 0
  let e := st.getD 4 0
  let f := st.getD 5 0
  let g := st.getD 6 0
  let h := st.getD 7 0
  let S1 := (rotr32 6 e) ^^^ (rotr32 11 e) ^^^ (rotr32 25 e)
  let ch := (e &&& f) ^^^ ((e ^^^ (M32 - 1)) &&& g)
  let temp1 := (h + S1 + ch + shaK.getD t 0 + ws.getD t 0) % M32
  let S0 := (rotr32 2 a) ^^^ (rotr32 13 a) ^^^ (rotr32 22 a)
  let maj := (a &&& b) ^^^ (a &&& c) ^^^ (b &&& c)
  let temp2 := (S0 + maj) % M32
  [(temp1 + temp2) % M32, a, b, c, (d + temp1) % M32, e, f, g]

/-- Compress one 64-byte block into the hash state. -/
def shaBlock (hs : List Nat) (block : List Nat) : List Nat :=
  let ws := shaSchedule (bytesToWordsBE block)
  let st := (List.range 64).foldl (shaRound ws) hs
  (hs.zip st).map (fun p => (p.1 + p.2) % M32)

/-- Split into 64-byte chunks; fuel recursion (fuel at least the length)
so that the kernel can evaluate it. -/
def chunks64Fuel : Nat → List Nat → List (List Nat)
  | 0, _ => []
  | _, [] => []
  | fuel+1, l => l.take 64 :: chunks64Fuel fuel (l.drop 64)

/-- The SHA-256 digest bytes of a byte message. -/
def sha256Bytes (msg : List Nat) : List Nat :=
  let padded := shaPad msg
  ((chunks64Fuel padded.length padded).foldl shaBlock shaH0).flatMap (natToBytesBE 4)

/-- Lowercase hex digit. -/
def hexChar (n : Nat) : Char :=
  ("0123456789abcdef".data).getD n '0'

/-- UTF-8 bytes of one character (Python `str.encode("utf-8")`). -/
def utf8Bytes (c : Char) : List Nat :=
  let n := c.toNat
  if n < 0x80 then [n]
  else if n < 0x800 then [0xC0 ||| (n >>> 6), 0x80 ||| (n &&& 0x3F)]
  else if n < 0x10000 then
    [0xE0 ||| (n >>> 12), 0x80 ||| ((n >>> 6) &&& 0x3F), 0x80 ||| (n &&& 0x3F)]
  else
    [0xF0 ||| (n >>> 18), 0x80 ||| ((n >>> 12) &&& 0x3F), 0x80 ||| ((n >>> 6) &&& 0x3F),
     0x80 ||| (n &&& 0x3F)]

/-- UTF-8 encoding of a string. -/
def strUtf8 (s : String) : List Nat := s.data.flatMap utf8Bytes

/-- The first `k` characters of `hashlib.sha256(s.encode("utf-8")).hexdigest()`. -/
def sha256hexTrunc (k : Nat) (s : String) : String :=
  ⟨((sha256Bytes (strUtf8 s)).flatMap (fun b => [hexChar (b / 16), hexChar (b % 16)])).take k⟩

/-! ### Name collision resolution: `unique_name` -/

/-- The net effect of `proposed.rpartition(".")` followed by the
no-extension fixup in `unique_name`: split at the last dot into stem and
extension, or keep the whole name as stem when there is no dot. -/
def rpartitionStemExt (proposed : String) : String × String :=
  let l := proposed.data
  if '.' ∈ l then
    let extRev := l.reverse.takeWhile (fun c => c ≠ '.')
    (⟨l.take (l.length - extRev.length - 1)⟩, ⟨extRev.reverse⟩)
  else (proposed, "")

/-- The candidate name `stem_i` (with the extension re-attached when
present) tried by the collision loop of `unique_name`. -/
def suffixCandidate (stem ext : String) (i : Nat) : String :=
  stem ++ "_" ++ decimalStr i ++ (if ext = "" then "" else "." ++ ext)

/-- The last-resort name of `unique_name`: the stem suffixed with the first
ten hex characters of the SHA-256 digest of the proposed name. -/
def digestCandidate (stem ext proposed : String) : String :=
  stem ++ "_" ++ sha256hexTrunc 10 proposed ++ (if ext = "" then "" else "." ++ ext)

/-- The `for i in range(2, 10_000)` loop of `unique_name`: starting at
counter `i` with the given fuel, return the first suffixed candidate not in
the registry, or `none` when all are taken. -/
def tryCandidates (existing : List String) (stem ext : String) : Nat → Nat → Option String
  | _, 0 => none
  | i, fuel+1 =>
    let c := suffixCandidate stem ext i
    if c ∈ existing then tryCandidates existing stem ext (i + 1) fuel
    else some c

/-- Embedding of `unique_name` from src/app.py. The Python version mutates
its registry set; here the updated registry is returned alongside the chosen
name. A fresh proposal is returned unchanged; otherwise suffixes
`stem_2` .. `stem_9999` are tried in order; when all are taken the digest
form is inserted without any membership check. -/
def unique_name (existing : List String) (proposed : String) : List String × String :=
  if proposed ∈ existing then
    let (stem, ext) := rpartitionStemExt proposed
    match tryCandidates existing stem ext 2 9998 with
    | some c => (c :: existing, c)
    | none =>
      let c := digestCandidate stem ext proposed
      (c :: existing, c)
  else (proposed :: existing, proposed)

/-! ### URL Extractor -/

/-- Python string comparison: lexicographic by code point. -/
def listLtB : List Char → List Char → Bool
  | _, [] => false
  | [], _ :: _ => true
  | c :: cs, d :: ds =>
    if c.toNat < d.toNat then true
    else if d.toNat < c.toNat then false
    else listLtB cs ds

/-- Python `<` on strings. -/
def strLtB (a b : String) : Bool := listLtB a.data b.data

/-- Insert a string into an ascending duplicate-free list, keeping it
ascending and duplicate-free. -/
def insertUnique (x : String) : List String → List String
  | [] => [x]
  | y :: ys =>
    if x = y then y :: ys
    else if strLtB x y then x :: y :: ys
    else y :: insertUnique x ys

/-- Python `sorted(set(l))`: the distinct elements of `l` in ascending
code-point order. -/
def sortedDedup (l : List String) : List String := l.foldr insertUnique []

/-- One image-bearing markup element, as the markup-parsing collaborator
yields it: a queryable attribute list. Modelled from the spec: the
BeautifulSoup document parse is external, "the core only needs \x22find all
image-bearing elements\x22 and \x22read a named attribute\x22". -/
structure HtmlElement where
  attrs : List (String × String)
deriving DecidableEq

/-- Attribute lookup, `None` when absent (BeautifulSoup `tag.get`). -/
def HtmlElement.get (e : HtmlElement) (k : String) : Option String :=
  (e.attrs.find? (fun p => p.1 = k)).map (fun p => p.2)

/-- Python truthiness of an optional string: `None` and the empty string
are falsy. -/
def pyTruthy : Option String → Bool
  | none => false
  | some s => !s.data.isEmpty

/-- Python `a or b` on optional strings. -/
def pyOrStr (a b : Option String) : Option String := if pyTruthy a then a else b

/-- Does the char list contain the pattern as a contiguous substring. -/
def listContainsSub (l pat : List Char) : Bool :=
  match l with
  | [] => listStartsWith [] pat
  | _ :: rest => listStartsWith l pat || listContainsSub rest pat

/-- Everything after the first occurrence of the pattern (which must occur). -/
def listAfterSub (l pat : List Char) : List Char :=
  match l with
  | [] => []
  | _ :: rest => if listStartsWith l pat then l.drop pat.length else listAfterSub rest pat

/-- The `scheme://host` part of an absolute URL. -/
def schemeHostOf (base : String) : String :=
  let rest := listAfterSub base.data "://".data
  ⟨(base.data.take (base.data.length - rest.length)) ++ rest.takeWhile (fun c => c ≠ '/')⟩

/-- The base URL up to and including the last slash of its path; used for
resolving path-relative references. -/
def baseDirOf (base : String) : String :=
  let rest := listAfterSub base.data "://".data
  let pre := base.data.take (base.data.length - rest.length)
  let host := rest.takeWhile (fun c => c ≠ '/')
  let path := rest.drop host.length
  if path.contains '/' then
    ⟨pre ++ host ++ (path.reverse.dropWhile (fun c => c ≠ '/')).reverse⟩
  else ⟨pre ++ host ++ ['/']⟩

/-- Modelled from the spec: `urllib.parse.urljoin` (standard relative-URL
resolution, external to src/app.py) — "scheme/host inherited from baseUrl
when the reference is relative; otherwise the reference itself". An
absolute reference is kept; a scheme-relative reference inherits the
scheme; a root-relative reference inherits scheme and host; any other
reference replaces the last path segment of the base. -/
def urljoin (base ref : String) : String :=
  if listContainsSub ref.data "://".data then ref
  else if listStartsWith ref.data "//".data then
    ⟨(base.data.takeWhile (fun c => c ≠ ':')) ++ [':'] ++ ref.data⟩
  else if listStartsWith ref.data "/".data then schemeHostOf base ++ ref
  else baseDirOf base ++ ref

/-- The descriptor-selector attempt of `extract_image_urls`:
`pick_best_from_srcset(srcset) if srcset else None`. -/
def imgBest (e : HtmlElement) : Option String :=
  match e.get "srcset" with
  | some s => if s.data.isEmpty then none else pick_best_from_srcset s
  | none => none

/-- The attribute fallback chain of `extract_image_urls`: the srcset pick,
then `src`, then the three lazy-load attributes, under Python `or`
truthiness. -/
def imgSrc (e : HtmlElement) : Option String :=
  pyOrStr (imgBest e)
    (pyOrStr (e.get "src")
      (pyOrStr (e.get "data-src")
        (pyOrStr (e.get "data-original") (e.get "data-lazy-src"))))

/-- The absolute URL contributed by one element: the fallback-chain result
resolved against the base URL, or nothing when the chain is falsy (the
`if not src: continue` skip). -/
def elementUrl (base : String) (e : HtmlElement) : Option String :=
  let src := imgSrc e
  if pyTruthy src then some (urljoin base (src.getD "")) else none

/-- The URLs accumulated into the set by the element loop, in document
order (the set itself forgets this order). -/
def collectImageUrls (base : String) (elems : List HtmlElement) : List String :=
  elems.filterMap (elementUrl base)

/-- Embedding of `extract_image_urls` from src/app.py: the contributed
URLs, deduplicated and sorted ascending (`sorted` over the accumulated
set). The document parse is external; the element list stands for
`soup.find_all("img")` in document order. -/
def extract_image_urls (elems : List HtmlElement) (base_url : String) : List String :=
  sortedDedup (collectImageUrls base_url elems)

/-! ### Fetch-and-Package Pipeline -/

/-- Embedding of the `DownloadResult` dataclass from src/app.py. -/
structure DownloadResult where
  url : String
  filename : String
  size_bytes : Nat
  content_type : String
deriving DecidableEq

/-- One transport response. Modelled from the spec: the transport
collaborator returns final URL, status code, headers and body; the body's
parsed image elements stand in for the raw HTML text, since the markup
parser is likewise external. -/
structure PageResponse where
  url : String
  status : Nat
  contentType : Option String
  body : List Nat
  imgElements : List HtmlElement
deriving DecidableEq

deriving instance DecidableEq for Except

/-- A transport environment: what `sess.get` yields per URL. `Except.error`
is a raised `requests` transport exception. -/
abbrev FetchEnv := String → Except Unit PageResponse

/-- Does `Response.raise_for_status` raise: true exactly for 4xx and 5xx
status codes. -/
def raisesForStatus (s : Nat) : Bool := 400 ≤ s && s < 600

/-- The per-image classification inside the try block of
`build_zip_from_images`: transport error or raising status or non-image
content-type or empty body mean a skip (`none`); otherwise the lowered
content-type and body are kept. -/
def fetchImage (fetch : FetchEnv) (u : String) : Option (String × List Nat) :=
  match fetch u with
  | .error _ => none
  | .ok r =>
    if raisesForStatus r.status then none
    else
      let ct : String := ⟨toLowerList ((r.contentType.getD "").data)⟩
      if !listStartsWith ct.data "image/".data then none
      else if r.body.isEmpty then none
      else some (ct, r.body)

/-- Modelled from the spec: `urllib.parse.urlparse(u).path` (external to
src/app.py) — the path component after scheme and host, without query or
fragment. -/
def urlPath (u : String) : String :=
  let l := u.data
  let p :=
    if listContainsSub l "://".data then
      (listAfterSub l "://".data).dropWhile (fun c => c ≠ '/')
    else l
  ⟨(p.takeWhile (fun c => c ≠ '?')).takeWhile (fun c => c ≠ '#')⟩

/-- The filename derivation of the accept branch: last path segment (or
`image_<idx>` when empty) sanitized, keeping a recognized image extension
or else appending one guessed from the content-type (generic `.img` when
unrecognized). -/
def imageFilename (u : String) (idx : Nat) (ct : String) : String :=
  let seg : List Char := (splitOnChar '/' (urlPath u).data).getLastD []
  let path_name := safe_filename (if seg.isEmpty then "image_" ++ decimalStr idx else ⟨seg⟩)
  let lower := toLowerList path_name.data
  if IMG_EXTS.any (fun e => listEndsWith lower e.data) then path_name
  else
    path_name ++ (let g := guess_ext_from_content_type ct; if g = "" then ".img" else g)

/-- The per-URL loop of `build_zip_from_images`, with `idx` the 1-based
enumeration counter and `used` the name registry. Returns the archive
entries written (name and bytes, in order), the accepted records and the
skipped URLs, each in attempt order. -/
def process_images (fetch : FetchEnv) :
    List String → Nat → List String → List (String × List Nat) × List DownloadResult × List String
  | [], _, _ => ([], [], [])
  | u :: rest, idx, used =>
    match fetchImage fetch u with
    | none =>
      let r := process_images fetch rest (idx + 1) used
      (r.1, r.2.1, u :: r.2.2)
    | some (ct, raw) =>
      let un := unique_name used (imageFilename u idx ct)
      let r := process_images fetch rest (idx + 1) un.1
      ((un.2, raw) :: r.1,
       { url := u, filename := un.2, size_bytes := raw.length,
         content_type := ⟨(splitOnChar ';' ct.data).headD []⟩ } :: r.2.1,
       r.2.2)

/-- Embedding of `build_zip_from_images` from src/app.py. The archive is
modelled as its ordered list of written entries (the ZIP container's byte
layout is not modelled; the no-image early return's `b""` is the empty
entry list). A transport error or a raising status on the page fetch
propagates as `Except.error`; afterwards the extracted URLs, truncated to
`max_images`, are processed one by one. -/
def build_zip_from_images (fetch : FetchEnv) (page_url : String) (max_images : Nat) :
    Except Unit (List (String × List Nat) × List DownloadResult × List String) :=
  match fetch page_url with
  | .error _ => .error ()
  | .ok resp =>
    if raisesForStatus resp.status then .error ()
    else
      let base_url := resp.url
      let image_urls := extract_image_urls resp.imgElements base_url
      if image_urls.isEmpty then .ok ([], [], [])
      else .ok (process_images fetch (image_urls.take max_images) 1 [])

/-! ### Concrete transport environments used as test inputs -/

/-- A page response with two image elements, one via `src`, one via
`srcset` (the end-to-end scenario of the spec's testable properties). -/
def pageTwoImgs : PageResponse :=
  { url := "https://x.test/p", status := 200, contentType := some "text/html",
    body := [60], imgElements := [⟨[("src", "/a.png")]⟩, ⟨[("srcset", "b-320.jpg 320w, b-640.jpg 640w")]⟩] }

/-- Transport where the page and both its images succeed. -/
def envTwoOk : FetchEnv := fun u =>
  if u = "https://x.test/p" then .ok pageTwoImgs
  else if u = "https://x.test/a.png" then
    .ok { url := u, status := 200, contentType := some "image/png", body := [1, 2, 3], imgElements := [] }
  else if u = "https://x.test/b-640.jpg" then
    .ok { url := u, status := 200, contentType := some "image/jpeg", body := [4, 5], imgElements := [] }
  else .error ()

/-- Transport where the page fetch yields HTTP 304 Not Modified (a non-2xx,
non-raising status) with an empty body. -/
def env304 : FetchEnv := fun u =>
  if u = "https://x.test/p" then
    .ok { url := "https://x.test/p", status := 304, contentType := some "text/html",
          body := [], imgElements := [] }
  else .error ()

/-- Transport where the page fetch yields HTTP 404. -/
def env404 : FetchEnv := fun u =>
  if u = "https://x.test/p" then
    .ok { url := "https://x.test/p", status := 404, contentType := some "text/html",
          body := [60], imgElements := [] }
  else .error ()

/-- Transport with one image element whose fetch returns an HTML body: the
URL is skipped for its non-image content-type. -/
def envSkipHtml : FetchEnv := fun u =>
  if u = "https://s.test/p" then
    .ok { url := "https://s.test/p", status := 200, contentType := some "text/html",
          body := [60], imgElements := [⟨[("src", "/x.png")]⟩] }
  else if u = "https://s.test/x.png" then
    .ok { url := u, status := 200, contentType := some "text/html", body := [60],
          imgElements := [] }
  else .error ()

/-- Transport with a page of five distinct image elements; every image
fetch succeeds. -/
def envFive : FetchEnv := fun u =>
  if u = "https://f.test/p" then
    .ok { url := "https://f.test/p", status := 200, contentType := some "text/html",
          body := [60],
          imgElements := [⟨[("src", "/i1.png")]⟩, ⟨[("src", "/i2.png")]⟩, ⟨[("src", "/i3.png")]⟩,
                          ⟨[("src", "/i4.png")]⟩, ⟨[("src", "/i5.png")]⟩] }
  else
    .ok { url := u, status := 200, contentType := some "image/png", body := [9],
          imgElements := [] }

/-- Transport whose page contains no image elements at all. -/
def envNoImg : FetchEnv := fun u =>
  if u = "https://e.test/p" then
    .ok { url := "https://e.test/p", status := 200, contentType := some "text/html",
          body := [60], imgElements := [] }
  else .error ()

/-- A registry on which `unique_name` repeats an existing name: it holds
the proposal `"a"`, every suffix form `a_2` .. `a_9999`, and the digest
form `a_ca978112ca` (the first ten hex characters of the SHA-256 digest of
`"a"`). -/
def cexRegistry : List String :=
  "a" :: "a_ca978112ca" :: (List.range 9998).map (fun k => "a_" ++ decimalStr (k + 2))

/-! ## Claim C1: the Name Sanitizer -/

/-- C1 counterexample: on the claimed input the sanitizer produces a double
underscore, because the exclamation mark becomes one underscore and the
following space another; the claimed output with a single underscore is not
the function's value. -/
theorem safe_filename_claim_cex :
    safe_filename "My Photo! 2024.JPG" "image" = "My_Photo__2024.JPG" ∧
    "My_Photo__2024.JPG" ≠ "My_Photo_2024.JPG" :=
  ⟨by decide, by decide⟩

/-- C1 (amended): `safe_filename "My Photo! 2024.JPG" "image"` is exactly
`"My_Photo__2024.JPG"`; in general every maximal run of characters outside
the kept class and every whitespace run collapses to a single underscore
(the two passes of `sanitizeCore`), the result never exceeds 180
characters, and the fallback is substituted exactly when the sanitized
core is empty, itself truncated to 180 characters. -/
theorem safe_filename_amended_spec :
    safe_filename "My Photo! 2024.JPG" "image" = "My_Photo__2024.JPG" ∧
    (∀ name fallback : String, (safe_filename name fallback).length ≤ 180) ∧
    (∀ name fallback : String, (sanitizeCore name).isEmpty = false →
      safe_filename name fallback = ⟨(sanitizeCore name).take 180⟩) ∧
    (∀ name fallback : String, (sanitizeCore name).isEmpty = true →
      safe_filename name fallback = ⟨fallback.data.take 180⟩) := by
  refine ⟨by decide, ?_, ?_, ?_⟩
  · intro name fallback
    show (String.mk _).length ≤ 180
    simp [String.length]
  · intro name fallback h
    simp [safe_filename, h]
  · intro name fallback h
    simp [safe_filename, h]

/-- C1 witness: the conditional clauses of the amended claim instantiated
at concrete inputs. -/
theorem safe_filename_amended_witness :
    safe_filename "logo" "image" = ⟨(sanitizeCore "logo").take 180⟩ ∧
    safe_filename "  " "image" = ⟨("image".data).take 180⟩ :=
  ⟨safe_filename_amended_spec.2.2.1 "logo" "image" (by decide),
   safe_filename_amended_spec.2.2.2 "  " "image" (by decide)⟩

/-! ## Claim C3: the Descriptor Selector -/

theorem insertByW_ne_nil (x : Nat × List Char) (l : List (Nat × List Char)) :
    insertByW x l ≠ [] := by
  cases l with
  | nil => simp [insertByW]
  | cons y ys =>
    simp only [insertByW]
    split <;> simp

theorem mem_insertByW {b x : Nat × List Char} :
    ∀ {l : List (Nat × List Char)}, b ∈ insertByW x l → b = x ∨ b ∈ l := by
  intro l
  induction l with
  | nil => intro h; simp [insertByW] at h; exact Or.inl h
  | cons y ys ih =>
    intro h
    simp only [insertByW] at h
    split at h
    · rcases List.mem_cons.mp h with h1 | h2
      · exact Or.inr (by simp [h1])
      · rcases ih h2 with ha | hm
        · exact Or.inl ha
        · exact Or.inr (List.mem_cons_of_mem _ hm)
    · rcases List.mem_cons.mp h with h1 | h2
      · exact Or.inl h1
      · exact Or.inr h2

theorem sorted_insertByW (x : Nat × List Char) :
    ∀ l : List (Nat × List Char), l.Sorted (fun a b => a.1 ≤ b.1) →
      (insertByW x l).Sorted (fun a b => a.1 ≤ b.1) := by
  intro l
  induction l with
  | nil => intro _; simp [insertByW]
  | cons y ys ih =>
    intro h
    rw [List.sorted_cons] at h
    obtain ⟨hy, hys⟩ := h
    simp only [insertByW]
    split
    · rename_i hle
      rw [List.sorted_cons]
      refine ⟨?_, ih hys⟩
      intro b hb
      rcases mem_insertByW hb with hbx | hbm
      · exact hbx ▸ hle
      · exact hy b hbm
    · rename_i hgt
      rw [List.sorted_cons]
      refine ⟨?_, List.sorted_cons.mpr ⟨hy, hys⟩⟩
      intro b hb
      rcases List.mem_cons.mp hb with h1 | h2
      · exact h1 ▸ Nat.le_of_not_le hgt
      · exact Nat.le_trans (Nat.le_of_not_le hgt) (hy b h2)

theorem getLast?_insertByW (x : Nat × List Char) :
    ∀ l : List (Nat × List Char), l.Sorted (fun a b => a.1 ≤ b.1) →
      (insertByW x l).getLast? = lastMaxStep l.getLast? x := by
  intro l
  induction l with
  | nil => intro _; simp [insertByW, lastMaxStep]
  | cons y ys ih =>
    intro h
    rw [List.sorted_cons] at h
    obtain ⟨hy, hys⟩ := h
    simp only [insertByW]
    split
    · rename_i hle
      rw [List.getLast?_cons, List.getLast?_cons, ih hys]
      cases hgl : ys.getLast? with
      | none => simp [lastMaxStep, hle]
      | some w => simp [lastMaxStep]
    · rename_i hgt
      rw [List.getLast?_cons_cons, List.getLast?_cons]
      cases hgl : ys.getLast? with
      | none =>
        have hxy : ¬ y.1 ≤ x.1 := hgt
        simp [lastMaxStep, hxy]
      | some w =>
        have hwmem : w ∈ ys := by
          rcases List.getLast?_eq_some_iff.mp hgl with ⟨zs, hzs⟩
          simp [hzs]
        have hyw : y.1 ≤ w.1 := hy w hwmem
        have hwx : ¬ w.1 ≤ x.1 := fun hc => hgt (Nat.le_trans hyw hc)
        simp [lastMaxStep, hwx]

theorem foldl_insertByW_getLast? :
    ∀ (l acc : List (Nat × List Char)), acc.Sorted (fun a b => a.1 ≤ b.1) →
      (l.foldl (fun a x => insertByW x a) acc).getLast? = l.foldl lastMaxStep acc.getLast? := by
  intro l
  induction l with
  | nil => intro acc _; rfl
  | cons c cs ih =>
    intro acc hacc
    simp only [List.foldl_cons]
    rw [ih (insertByW c acc) (sorted_insertByW c acc hacc), getLast?_insertByW c acc hacc]

theorem pySortByW_getLast? (l : List (Nat × List Char)) :
    (pySortByW l).getLast? = lastMaxFold l := by
  simpa [pySortByW, lastMaxFold] using foldl_insertByW_getLast? l [] (by simp)

theorem foldl_lastMaxStep_some :
    ∀ (l : List (Nat × List Char)) (d : Nat × List Char),
      ∃ e, l.foldl lastMaxStep (some d) = some e := by
  intro l
  induction l with
  | nil => intro d; exact ⟨d, rfl⟩
  | cons c cs ih =>
    intro d
    simp only [List.foldl_cons, lastMaxStep]
    exact ih _

theorem lastMaxFold_ne_none {l : List (Nat × List Char)} (h : l ≠ []) :
    ∃ d, lastMaxFold l = some d := by
  cases l with
  | nil => exact absurd rfl h
  | cons c cs =>
    simp only [lastMaxFold, List.foldl_cons, lastMaxStep]
    exact foldl_lastMaxStep_some cs c

theorem lastMaxFold_spec :
    ∀ (l : List (Nat × List Char)) (d : Nat × List Char), lastMaxFold l = some d →
      ∃ pre post, l = pre ++ d :: post ∧ (∀ e ∈ l, e.1 ≤ d.1) ∧ ∀ e ∈ post, e.1 < d.1 := by
  intro l
  induction l using List.reverseRecOn with
  | nil => intro d h; simp [lastMaxFold] at h
  | append_singleton l c ih =>
    intro d h
    rw [lastMaxFold, List.foldl_append] at h
    simp only [List.foldl_cons, List.foldl_nil] at h
    cases hl : lastMaxFold l with
    | none =>
      have hnil : l = [] := by
        by_contra hne
        obtain ⟨e, he⟩ := lastMaxFold_ne_none hne
        rw [he] at hl; exact Option.noConfusion hl
      subst hnil
      simp only [lastMaxFold, List.foldl_nil] at h ⊢
      simp only [lastMaxStep] at h
      refine ⟨[], [], ?_, ?_, ?_⟩
      · simpa using Option.some.inj h
      · intro e he
        simp at he
        simp [he, Option.some.inj h]
      · intro e he; simp at he
    | some m =>
      rw [lastMaxFold] at hl
      rw [hl] at h
      simp only [lastMaxStep] at h
      by_cases hle : m.1 ≤ c.1
      · rw [if_pos hle] at h
        have hdc : d = c := (Option.some.inj h).symm
        subst hdc
        refine ⟨l, [], by simp, ?_, by simp⟩
        intro e he
        rcases List.mem_append.mp he with h1 | h2
        · obtain ⟨pre, post, _, hmax, _⟩ := ih m hl
          exact Nat.le_trans (hmax e h1) hle
        · simp at h2; simp [h2]
      · rw [if_neg hle] at h
        have hdm : d = m := (Option.some.inj h).symm
        subst hdm
        obtain ⟨pre, post, hdec, hmax, hpost⟩ := ih d hl
        refine ⟨pre, post ++ [c], by simp [hdec], ?_, ?_⟩
        · intro e he
          rcases List.mem_append.mp he with h1 | h2
          · exact hmax e h1
          · simp at h2
            simp [h2]
            omega
        · intro e he
          rcases List.mem_append.mp he with h1 | h2
          · exact hpost e h1
          · simp at h2
            simp [h2]
            omega

theorem srcsetCandidates_of_empty : srcsetCandidates (splitOnChar ',' ("" : String).data) = [] := by
  decide

/-- C3: the Descriptor Selector returns the URL of the candidate of maximum
width, resolving ties to the last such candidate in parse order, and is
absent exactly on empty or unparseable input; the two spec examples
evaluate as claimed. -/
theorem pick_best_spec :
    pick_best_from_srcset "a.jpg 320w, b.jpg 640w" = some "b.jpg" ∧
    pick_best_from_srcset "a.jpg 640w, b.jpg 640w" = some "b.jpg" ∧
    pick_best_from_srcset "" = none ∧
    (∀ s : String, srcsetCandidates (splitOnChar ',' s.data) = [] →
      pick_best_from_srcset s = none) ∧
    (∀ s : String, srcsetCandidates (splitOnChar ',' s.data) ≠ [] →
      ∃ d pre post, srcsetCandidates (splitOnChar ',' s.data) = pre ++ d :: post ∧
        (∀ e ∈ srcsetCandidates (splitOnChar ',' s.data), e.1 ≤ d.1) ∧
        (∀ e ∈ post, e.1 < d.1) ∧
        pick_best_from_srcset s = some ⟨d.2⟩) := by
  refine ⟨by decide, by decide, by decide, ?_, ?_⟩
  · intro s h
    by_cases hs : s.data.isEmpty
    · simp [pick_best_from_srcset, hs]
    · simp [pick_best_from_srcset, hs, h]
  · intro s h
    obtain ⟨d, hd⟩ := lastMaxFold_ne_none h
    obtain ⟨pre, post, hdec, hmax, hpost⟩ := lastMaxFold_spec _ d hd
    refine ⟨d, pre, post, hdec, hmax, hpost, ?_⟩
    have hs : ¬ s.data.isEmpty := by
      intro hc
      apply h
      have : s = "" := by
        cases s with
        | mk data =>
          have hd0 : data = [] := by simpa [String.isEmpty] using hc
          simp [hd0]
      rw [this]
      exact srcsetCandidates_of_empty
    simp only [pick_best_from_srcset, Bool.not_eq_true] at *
    rw [if_neg (by simpa using hs)]
    rw [if_neg (by simpa [List.isEmpty_iff] using h)]
    rw [pySortByW_getLast?, hd]
    rfl

/-- C3 witness: the general selection clause instantiated on a concrete
descriptor set. -/
theorem pick_best_witness :
    ∃ d pre post,
      srcsetCandidates (splitOnChar ',' ("a.jpg 1w" : String).data) = pre ++ d :: post ∧
      (∀ e ∈ srcsetCandidates (splitOnChar ',' ("a.jpg 1w" : String).data), e.1 ≤ d.1) ∧
      (∀ e ∈ post, e.1 < d.1) ∧
      pick_best_from_srcset "a.jpg 1w" = some ⟨d.2⟩ :=
  pick_best_spec.2.2.2.2 "a.jpg 1w" (by decide)

/-! ## Claim C6: the URL Extractor output shape -/

theorem char_toNat_inj {c d : Char} (h : c.toNat = d.toNat) : c = d := by
  have h2 := congrArg Char.ofNat h
  simpa [Char.ofNat_toNat] using h2

theorem listLtB_irrefl : ∀ l : List Char, listLtB l l = false := by
  intro l
  induction l with
  | nil => rfl
  | cons c cs ih => simp [listLtB, ih]

theorem listLtB_trans :
    ∀ a b c : List Char, listLtB a b = true → listLtB b c = true → listLtB a c = true := by
  intro a
  induction a with
  | nil =>
    intro b c h1 h2
    cases b with
    | nil => simp [listLtB] at h1
    | cons y ys =>
      cases c with
      | nil => simp [listLtB] at h2
      | cons z zs => simp [listLtB]
  | cons x xs ih =>
    intro b c h1 h2
    cases b with
    | nil => simp [listLtB] at h1
    | cons y ys =>
      cases c with
      | nil => simp [listLtB] at h2
      | cons z zs =>
        simp only [listLtB] at h1 h2 ⊢
        by_cases hxy : x.toNat < y.toNat
        · by_cases hyz : y.toNat < z.toNat
          · simp [Nat.lt_trans hxy hyz]
          · by_cases hzy : z.toNat < y.toNat
            · rw [if_neg hyz, if_pos hzy] at h2; exact absurd h2 (by simp)
            · have hxz : x.toNat < z.toNat := by omega
              simp [hxz]
        · by_cases hyx : y.toNat < x.toNat
          · rw [if_neg hxy, if_pos hyx] at h1; exact absurd h1 (by simp)
          · rw [if_neg hxy, if_neg hyx] at h1
            by_cases hyz : y.toNat < z.toNat
            · have hxz : x.toNat < z.toNat := by omega
              simp [hxz]
            · by_cases hzy : z.toNat < y.toNat
              · rw [if_neg hyz, if_pos hzy] at h2; exact absurd h2 (by simp)
              · rw [if_neg hyz, if_neg hzy] at h2
                have hxz : ¬ x.toNat < z.toNat := by omega
                have hzx : ¬ z.toNat < x.toNat := by omega
                rw [if_neg hxz, if_neg hzx]
                exact ih ys zs h1 h2

theorem listLtB_eq_of_not :
    ∀ a b : List Char, listLtB a b = false → listLtB b a = false → a = b := by
  intro a
  induction a with
  | nil =>
    intro b h1 _
    cases b with
    | nil => rfl
    | cons y ys => simp [listLtB] at h1
  | cons x xs ih =>
    intro b h1 h2
    cases b with
    | nil => simp [listLtB] at h2
    | cons y ys =>
      simp only [listLtB] at h1 h2
      by_cases hxy : x.toNat < y.toNat
      · rw [if_pos hxy] at h1; exact absurd h1 (by simp)
      · by_cases hyx : y.toNat < x.toNat
        · rw [if_pos hyx] at h2; exact absurd h2 (by simp)
        · rw [if_neg hxy, if_neg hyx] at h1
          rw [if_neg hyx, if_neg hxy] at h2
          have hce : x = y := char_toNat_inj (by omega)
          rw [hce, ih ys h1 h2]

theorem strLtB_irrefl (a : String) : strLtB a a = false := listLtB_irrefl a.data

theorem strLtB_trans {a b c : String} (h1 : strLtB a b = true) (h2 : strLtB b c = true) :
    strLtB a c = true := listLtB_trans a.data b.data c.data h1 h2

theorem strLtB_eq_of_not {a b : String} (h1 : strLtB a b = false) (h2 : strLtB b a = false) :
    a = b := by
  cases a with
  | mk da =>
    cases b with
    | mk db =>
      have : da = db := listLtB_eq_of_not da db h1 h2
      rw [this]

theorem mem_insertUnique {a x : String} :
    ∀ {l : List String}, a ∈ insertUnique x l ↔ a = x ∨ a ∈ l := by
  intro l
  induction l with
  | nil => simp [insertUnique]
  | cons y ys ih =>
    simp only [insertUnique]
    split
    · rename_i hxy
      subst hxy
      constructor
      · intro h; exact Or.inr h
      · intro h; rcases h with h | h
        · simp [h]
        · exact h
    · split
      · simp [or_assoc, List.mem_cons]
      · simp only [List.mem_cons, ih]
        constructor
        · intro h; rcases h with h | h | h
          · exact Or.inr (Or.inl h)
          · exact Or.inl h
          · exact Or.inr (Or.inr h)
        · intro h; rcases h with h | h | h
          · exact Or.inr (Or.inl h)
          · exact Or.inl h
          · exact Or.inr (Or.inr h)

theorem sorted_insertUnique (x : String) :
    ∀ l : List String, l.Sorted (fun a b => strLtB a b = true) →
      (insertUnique x l).Sorted (fun a b => strLtB a b = true) := by
  intro l
  induction l with
  | nil => intro _; simp [insertUnique]
  | cons y ys ih =>
    intro h
    rw [List.sorted_cons] at h
    obtain ⟨hy, hys⟩ := h
    simp only [insertUnique]
    split
    · exact List.sorted_cons.mpr ⟨hy, hys⟩
    · rename_i hne
      split
      · rename_i hlt
        rw [List.sorted_cons]
        refine ⟨?_, List.sorted_cons.mpr ⟨hy, hys⟩⟩
        intro b hb
        rcases List.mem_cons.mp hb with h1 | h2
        · exact h1 ▸ hlt
        · exact strLtB_trans hlt (hy b h2)
      · rename_i hnlt
        have hyx : strLtB y x = true := by
          cases hcase : strLtB y x with
          | true => rfl
          | false =>
            exact absurd (strLtB_eq_of_not (Bool.not_eq_true _ ▸ (by simpa using hnlt)) hcase).symm
              (fun he => hne he.symm)
        rw [List.sorted_cons]
        refine ⟨?_, ih hys⟩
        intro b hb
        rcases mem_insertUnique.mp hb with h1 | h2
        · exact h1 ▸ hyx
        · exact hy b h2

theorem sortedDedup_sorted (l : List String) :
    (sortedDedup l).Sorted (fun a b => strLtB a b = true) := by
  induction l with
  | nil => simp [sortedDedup]
  | cons x xs ih => exact sorted_insertUnique x _ ih

theorem mem_sortedDedup {a : String} :
    ∀ {l : List String}, a ∈ sortedDedup l ↔ a ∈ l := by
  intro l
  induction l with
  | nil => simp [sortedDedup]
  | cons x xs ih =>
    show a ∈ insertUnique x (sortedDedup xs) ↔ _
    rw [mem_insertUnique, ih]
    simp

theorem sorted_strLtB_nodup {l : List String}
    (h : l.Sorted (fun a b => strLtB a b = true)) : l.Nodup := by
  refine h.imp ?_
  intro a b hab he
  subst he
  rw [strLtB_irrefl] at hab
  exact Bool.noConfusion hab

theorem sorted_eq_of_mem_iff :
    ∀ (l₁ l₂ : List String), l₁.Sorted (fun a b => strLtB a b = true) →
      l₂.Sorted (fun a b => strLtB a b = true) → (∀ a, a ∈ l₁ ↔ a ∈ l₂) → l₁ = l₂ := by
  intro l₁
  induction l₁ with
  | nil =>
    intro l₂ _ _ hm
    cases l₂ with
    | nil => rfl
    | cons b t => exact absurd ((hm b).mpr (by simp)) (by simp)
  | cons a s ih =>
    intro l₂ h1 h2 hm
    cases l₂ with
    | nil => exact absurd ((hm a).mp (by simp)) (by simp)
    | cons b t =>
      rw [List.sorted_cons] at h1 h2
      obtain ⟨ha, hs⟩ := h1
      obtain ⟨hb, ht⟩ := h2
      have hab : a = b := by
        rcases List.mem_cons.mp ((hm a).mp (by simp)) with h1' | h2'
        · exact h1'
        · rcases List.mem_cons.mp ((hm b).mpr (by simp)) with h1'' | h2''
          · exact h1''.symm
          · exfalso
            have hba : strLtB b a = true := hb a h2'
            have hab' : strLtB a b = true := ha b h2''
            have : strLtB a a = true := strLtB_trans hab' hba
            rw [strLtB_irrefl] at this
            exact Bool.noConfusion this
      subst hab
      congr 1
      apply ih t hs ht
      intro x
      constructor
      · intro hx
        have hne : x ≠ a := by
          intro he
          subst he
          have : strLtB x x = true := ha x hx
          rw [strLtB_irrefl] at this
          exact Bool.noConfusion this
        rcases List.mem_cons.mp ((hm x).mp (List.mem_cons_of_mem _ hx)) with h1' | h2'
        · exact absurd h1' hne
        · exact h2'
      · intro hx
        have hne : x ≠ a := by
          intro he
          subst he
          have : strLtB x x = true := hb x hx
          rw [strLtB_irrefl] at this
          exact Bool.noConfusion this
        rcases List.mem_cons.mp ((hm x).mpr (List.mem_cons_of_mem _ hx)) with h1' | h2'
        · exact absurd h1' hne
        · exact h2'

theorem sortedDedup_perm_inv {l₁ l₂ : List String} (hp : l₁.Perm l₂) :
    sortedDedup l₁ = sortedDedup l₂ := by
  apply sorted_eq_of_mem_iff _ _ (sortedDedup_sorted l₁) (sortedDedup_sorted l₂)
  intro a
  rw [mem_sortedDedup, mem_sortedDedup]
  exact hp.mem_iff

/-- C6: the extractor output is lexicographically sorted (ascending by
code point, Python string order) and duplicate-free, and extraction is
order-stable: element lists that are permutations of one another produce
the identical sorted URL list (re-extracting identical markup trivially
included). -/
theorem extract_sorted_dedup_spec :
    (∀ (elems : List HtmlElement) (base : String),
      (extract_image_urls elems base).Sorted (fun a b => strLtB a b = true)) ∧
    (∀ (elems : List HtmlElement) (base : String), (extract_image_urls elems base).Nodup) ∧
    (∀ (elems₁ elems₂ : List HtmlElement) (base : String), elems₁.Perm elems₂ →
      extract_image_urls elems₁ base = extract_image_urls elems₂ base) := by
  refine ⟨?_, ?_, ?_⟩
  · intro elems base
    exact sortedDedup_sorted _
  · intro elems base
    exact sorted_strLtB_nodup (sortedDedup_sorted _)
  · intro elems₁ elems₂ base hp
    exact sortedDedup_perm_inv (hp.filterMap _)

/-- C6 witness: permutation stability on a concrete pair of reordered
element lists. -/
theorem extract_sorted_dedup_witness :
    extract_image_urls [⟨[("src", "/z.png")]⟩, ⟨[("src", "/a.png")]⟩] "https://x.test/p" =
      extract_image_urls [⟨[("src", "/a.png")]⟩, ⟨[("src", "/z.png")]⟩] "https://x.test/p" :=
  extract_sorted_dedup_spec.2.2 _ _ "https://x.test/p" (by decide)

/-! ## Claim C9: attribute precedence in the extractor -/

theorem head?_dropWhile_not (p : Char → Bool) :
    ∀ (l : List Char) (x : Char), (l.dropWhile p).head? = some x → p x = false := by
  intro l
  induction l with
  | nil => intro x h; simp at h
  | cons c cs ih =>
    intro x h
    by_cases hc : p c
    · rw [List.dropWhile_cons_of_pos hc] at h
      exact ih x h
    · rw [List.dropWhile_cons_of_neg hc] at h
      simp at h
      rw [← h]
      exact Bool.of_not_eq_true hc

theorem dropWhile_of_all_neg {p : Char → Bool} :
    ∀ l : List Char, (∀ c ∈ l, p c = false) → l.dropWhile p = l := by
  intro l h
  cases l with
  | nil => rfl
  | cons c cs => exact List.dropWhile_cons_of_neg (by simp [h c (by simp)])

theorem pyStrip_of_all_neg {l : List Char} (h : ∀ c ∈ l, isPySpace c = false) :
    pyStrip l = l := by
  unfold pyStrip
  rw [dropWhile_of_all_neg l h]
  rw [dropWhile_of_all_neg l.reverse (fun c hc => h c (List.mem_reverse.mp hc))]
  exact List.reverse_reverse l

theorem pyStrip_exists_not_space {l : List Char} (h : pyStrip l ≠ []) :
    ∃ c ∈ pyStrip l, isPySpace c = false := by
  unfold pyStrip at *
  cases hmc : (l.dropWhile isPySpace).reverse.dropWhile isPySpace with
  | nil => rw [hmc] at h; simp at h
  | cons x xs =>
    refine ⟨x, by simp, ?_⟩
    exact head?_dropWhile_not isPySpace _ x (by rw [hmc]; rfl)

theorem pySplitWsAux_words :
    ∀ (l acc : List Char), (∀ c ∈ acc, isPySpace c = false) →
      ∀ w ∈ pySplitWsAux l acc, w ≠ [] ∧ ∀ c ∈ w, isPySpace c = false := by
  intro l
  induction l with
  | nil =>
    intro acc hacc w hw
    simp only [pySplitWsAux] at hw
    split at hw
    · simp at hw
    · rename_i hne
      simp at hw
      subst hw
      refine ⟨by simpa [List.isEmpty_iff] using hne, ?_⟩
      intro c hc
      exact hacc c (List.mem_reverse.mp hc)
  | cons c cs ih =>
    intro acc hacc w hw
    simp only [pySplitWsAux] at hw
    split at hw
    · split at hw
      · exact ih [] (by simp) w hw
      · rename_i hne
        rcases List.mem_cons.mp hw with h1 | h2
        · subst h1
          refine ⟨by simpa [List.isEmpty_iff] using hne, ?_⟩
          intro d hd
          exact hacc d (List.mem_reverse.mp hd)
        · exact ih [] (by simp) w h2
    · rename_i hcs
      refine ih (c :: acc) ?_ w hw
      intro d hd
      rcases List.mem_cons.mp hd with h1 | h2
      · subst h1; exact Bool.of_not_eq_true hcs
      · exact hacc d h2

theorem pySplitWsAux_ne_nil_of_acc :
    ∀ (l acc : List Char), acc ≠ [] → pySplitWsAux l acc ≠ [] := by
  intro l
  induction l with
  | nil =>
    intro acc hacc
    simp only [pySplitWsAux]
    split
    · rename_i he
      exact absurd (by simpa [List.isEmpty_iff] using he) hacc
    · simp
  | cons c cs ih =>
    intro acc hacc
    simp only [pySplitWsAux]
    split
    · split
      · rename_i he
        exact absurd (by simpa [List.isEmpty_iff] using he) hacc
      · simp
    · exact ih (c :: acc) (by simp)

theorem pySplitWs_eq_nil_all_space :
    ∀ l : List Char, pySplitWs l = [] → ∀ c ∈ l, isPySpace c = true := by
  intro l
  induction l with
  | nil => intro _ c hc; simp at hc
  | cons c cs ih =>
    intro h d hd
    simp only [pySplitWs, pySplitWsAux] at h
    split at h
    · rename_i hcsp
      rcases List.mem_cons.mp hd with h1 | h2
      · subst h1; simpa using hcsp
      · exact ih (by simpa [pySplitWs, List.isEmpty_iff] using h) d h2
    · exact absurd h (pySplitWsAux_ne_nil_of_acc cs [c] (by simp))

theorem srcsetCandidates_url_ne_nil :
    ∀ (parts : List (List Char)) (d : Nat × List Char),
      d ∈ srcsetCandidates parts → d.2 ≠ [] := by
  intro parts
  induction parts with
  | nil => intro d h; simp [srcsetCandidates] at h
  | cons part rest ih =>
    intro d h
    simp only [srcsetCandidates] at h
    split at h
    · exact ih d h
    · rename_i hne
      rcases List.mem_cons.mp h with h1 | h2
      · have hpne : pyStrip part ≠ [] := by simpa [List.isEmpty_iff] using hne
        obtain ⟨x, hxm, hxs⟩ := pyStrip_exists_not_space hpne
        have hbits : pySplitWs (pyStrip part) ≠ [] := by
          intro hc
          have := pySplitWs_eq_nil_all_space _ hc x hxm
          rw [hxs] at this
          exact Bool.noConfusion this
        cases hb : pySplitWs (pyStrip part) with
        | nil => exact absurd hb hbits
        | cons w ws =>
          obtain ⟨hwne, hwns⟩ :=
            pySplitWsAux_words (pyStrip part) [] (by simp) w (by rw [← pySplitWs, hb]; simp)
          subst h1
          rw [hb]
          simpa [pyStrip_of_all_neg hwns] using hwne
      · exact ih d h2

theorem mem_pySortByW_aux :
    ∀ (l acc : List (Nat × List Char)) (t : Nat × List Char),
      t ∈ l.foldl (fun a x => insertByW x a) acc → t ∈ acc ∨ t ∈ l := by
  intro l
  induction l with
  | nil => intro acc t h; exact Or.inl h
  | cons c cs ih =>
    intro acc t h
    simp only [List.foldl_cons] at h
    rcases ih (insertByW c acc) t h with h1 | h2
    · rcases mem_insertByW h1 with ha | hm
      · exact Or.inr (by simp [ha])
      · exact Or.inl hm
    · exact Or.inr (List.mem_cons_of_mem _ h2)

theorem pick_best_url_ne_empty {s u : String} (h : pick_best_from_srcset s = some u) :
    u.data ≠ [] := by
  simp only [pick_best_from_srcset] at h
  split at h
  · exact Option.noConfusion h
  · split at h
    · exact Option.noConfusion h
    · rename_i hcne
      cases hgl : (pySortByW (srcsetCandidates (splitOnChar ',' s.data))).getLast? with
      | none => rw [hgl] at h; exact Option.noConfusion h
      | some t =>
        rw [hgl] at h
        have htm : t ∈ pySortByW (srcsetCandidates (splitOnChar ',' s.data)) := by
          rcases List.getLast?_eq_some_iff.mp hgl with ⟨ys, hys⟩
          simp [hys]
        rcases mem_pySortByW_aux _ [] t htm with h1 | h2
        · simp at h1
        · have hu : u = ⟨t.2⟩ := (Option.some.inj h).symm
          rw [hu]
          simpa using srcsetCandidates_url_ne_nil _ t h2

theorem pyTruthy_none : pyTruthy none = false := rfl

/-- C9: for each image-bearing element the Descriptor Selector result on
`srcset` is tried first; failing that, `src`, `data-src`, `data-original`
and `data-lazy-src` are consulted in that order under Python truthiness;
the first non-empty value is resolved against the base URL; an element
with no resolvable attribute contributes nothing to the extraction. -/
theorem attribute_precedence_spec :
    (∀ (base : String) (e : HtmlElement) (s u : String),
      e.get "srcset" = some s → pick_best_from_srcset s = some u →
      elementUrl base e = some (urljoin base u)) ∧
    (∀ (base : String) (e : HtmlElement),
      imgBest e = none → pyTruthy (e.get "src") = true →
      elementUrl base e = some (urljoin base ((e.get "src").getD ""))) ∧
    (∀ (base : String) (e : HtmlElement),
      imgBest e = none → pyTruthy (e.get "src") = false →
      pyTruthy (e.get "data-src") = true →
      elementUrl base e = some (urljoin base ((e.get "data-src").getD ""))) ∧
    (∀ (base : String) (e : HtmlElement),
      imgBest e = none → pyTruthy (e.get "src") = false →
      pyTruthy (e.get "data-src") = false → pyTruthy (e.get "data-original") = true →
      elementUrl base e = some (urljoin base ((e.get "data-original").getD ""))) ∧
    (∀ (base : String) (e : HtmlElement),
      imgBest e = none → pyTruthy (e.get "src") = false →
      pyTruthy (e.get "data-src") = false → pyTruthy (e.get "data-original") = false →
      pyTruthy (e.get "data-lazy-src") = true →
      elementUrl base e = some (urljoin base ((e.get "data-lazy-src").getD ""))) ∧
    (∀ (base : String) (e : HtmlElement),
      imgBest e = none → pyTruthy (e.get "src") = false →
      pyTruthy (e.get "data-src") = false → pyTruthy (e.get "data-original") = false →
      pyTruthy (e.get "data-lazy-src") = false → elementUrl base e = none) ∧
    (∀ (base : String) (e : HtmlElement) (rest : List HtmlElement),
      elementUrl base e = none →
      extract_image_urls (e :: rest) base = extract_image_urls rest base) := by
  refine ⟨?_, ?_, ?_, ?_, ?_, ?_, ?_⟩
  · intro base e s u hs hu
    have hbest : imgBest e = some u := by
      simp only [imgBest, hs]
      split
      · rename_i hse
        have hsempty : s = "" := by
          cases s with
          | mk ds =>
            have : ds = [] := by simpa using hse
            simp [this]
        rw [hsempty] at hu
        have hnone : pick_best_from_srcset "" = none := by decide
        rw [hnone] at hu
        exact Option.noConfusion hu
      · exact hu
    have htr : pyTruthy (some u) = true := by
      simpa [pyTruthy, List.isEmpty_iff] using pick_best_url_ne_empty hu
    simp [elementUrl, imgSrc, pyOrStr, hbest, htr]
  · intro base e h1 h2
    simp [elementUrl, imgSrc, pyOrStr, pyTruthy_none, h1, h2]
  · intro base e h1 h2 h3
    simp [elementUrl, imgSrc, pyOrStr, pyTruthy_none, h1, h2, h3]
  · intro base e h1 h2 h3 h4
    simp [elementUrl, imgSrc, pyOrStr, pyTruthy_none, h1, h2, h3, h4]
  · intro base e h1 h2 h3 h4 h5
    simp [elementUrl, imgSrc, pyOrStr, pyTruthy_none, h1, h2, h3, h4, h5]
  · intro base e h1 h2 h3 h4 h5
    simp [elementUrl, imgSrc, pyOrStr, pyTruthy_none, h1, h2, h3, h4, h5]
  · intro base e rest h
    simp [extract_image_urls, collectImageUrls, h]

/-- C9 witness: the precedence clauses instantiated on concrete elements. -/
theorem attribute_precedence_witness :
    elementUrl "https://x.test/p" ⟨[("src", "/a.png")]⟩ =
      some (urljoin "https://x.test/p" ((HtmlElement.get ⟨[("src", "/a.png")]⟩ "src").getD "")) ∧
    elementUrl "https://x.test/p" ⟨[("data-src", "/lazy.png")]⟩ =
      some (urljoin "https://x.test/p"
        ((HtmlElement.get ⟨[("data-src", "/lazy.png")]⟩ "data-src").getD "")) ∧
    elementUrl "https://x.test/p" ⟨[("alt", "hi")]⟩ = none :=
  ⟨attribute_precedence_spec.2.1 "https://x.test/p" _ (by decide) (by decide),
   attribute_precedence_spec.2.2.1 "https://x.test/p" _ (by decide) (by decide) (by decide),
   attribute_precedence_spec.2.2.2.2.2.1 "https://x.test/p" _ (by decide) (by decide) (by decide)
     (by decide) (by decide)⟩

/-! ## Decimal rendering and `unique_name` lemmas (claim C2) -/

theorem valLSB_digitsLSBFuel :
    ∀ fuel n, n < fuel → valLSB (digitsLSBFuel fuel n) = n := by
  intro fuel
  induction fuel with
  | zero => intro n h; omega
  | succ f ih =>
    intro n h
    by_cases h10 : n < 10
    · simp [digitsLSBFuel, h10, valLSB]
    · have hlt : n / 10 < f := by
        have h1 : n / 10 < n := Nat.div_lt_self (by omega) (by omega)
        omega
      simp only [digitsLSBFuel, if_neg h10, valLSB, ih _ hlt]
      omega

theorem valLSB_digitsLSB (n : Nat) : valLSB (digitsLSB n) = n :=
  valLSB_digitsLSBFuel (n + 1) n (Nat.lt_succ_self n)

theorem digitsLSB_inj {m n : Nat} (h : digitsLSB m = digitsLSB n) : m = n := by
  have := congrArg valLSB h
  rwa [valLSB_digitsLSB, valLSB_digitsLSB] at this

theorem digitsLSBFuel_lt10 :
    ∀ fuel n d, d ∈ digitsLSBFuel fuel n → d < 10 := by
  intro fuel
  induction fuel with
  | zero => intro n d h; simp [digitsLSBFuel] at h
  | succ f ih =>
    intro n d h
    by_cases h10 : n < 10
    · simp [digitsLSBFuel, h10] at h
      omega
    · simp only [digitsLSBFuel, if_neg h10] at h
      rcases List.mem_cons.mp h with h1 | h2
      · subst h1; exact Nat.mod_lt n (by omega)
      · exact ih _ d h2

theorem digitChar_inj :
    ∀ d1 d2 : Nat, d1 < 10 → d2 < 10 →
      Char.ofNat (48 + d1) = Char.ofNat (48 + d2) → d1 = d2 := by
  intro d1 d2 h1 h2
  interval_cases d1 <;> interval_cases d2 <;> simp_all

theorem map_digitChar_inj :
    ∀ l1 l2 : List Nat, (∀ d ∈ l1, d < 10) → (∀ d ∈ l2, d < 10) →
      l1.map (fun d => Char.ofNat (48 + d)) = l2.map (fun d => Char.ofNat (48 + d)) →
      l1 = l2 := by
  intro l1
  induction l1 with
  | nil =>
    intro l2 _ _ h
    cases l2 with
    | nil => rfl
    | cons b t => simp at h
  | cons a s ih =>
    intro l2 h1 h2 h
    cases l2 with
    | nil => simp at h
    | cons b t =>
      simp only [List.map_cons, List.cons.injEq] at h
      obtain ⟨hab, ht⟩ := h
      have hab' : a = b := digitChar_inj a b (h1 a (by simp)) (h2 b (by simp)) hab
      rw [hab', ih t (fun d hd => h1 d (by simp [hd])) (fun d hd => h2 d (by simp [hd])) ht]

theorem decimalStr_inj : Function.Injective decimalStr := by
  intro m n h
  have hdata : (digitsLSB m).reverse.map (fun d => Char.ofNat (48 + d)) =
      (digitsLSB n).reverse.map (fun d => Char.ofNat (48 + d)) := congrArg String.data h
  have hrev : (digitsLSB m).reverse = (digitsLSB n).reverse := by
    apply map_digitChar_inj
    · intro d hd
      exact digitsLSBFuel_lt10 _ _ d (List.mem_reverse.mp hd)
    · intro d hd
      exact digitsLSBFuel_lt10 _ _ d (List.mem_reverse.mp hd)
    · exact hdata
  exact digitsLSB_inj (List.reverse_injective hrev)

theorem suffixCandidate_inj (stem ext : String) :
    Function.Injective (suffixCandidate stem ext) := by
  intro i j h
  have hdata := congrArg String.data h
  simp only [suffixCandidate, String.data_append, List.append_assoc] at hdata
  have h1 := List.append_cancel_left hdata
  have h2 := List.append_cancel_left h1
  have h3 := List.append_cancel_right h2
  exact decimalStr_inj (String.ext h3)

theorem tryCandidates_some_fresh (existing : List String) (stem ext : String) :
    ∀ (fuel i : Nat) (c : String),
      tryCandidates existing stem ext i fuel = some c → c ∉ existing := by
  intro fuel
  induction fuel with
  | zero => intro i c h; simp [tryCandidates] at h
  | succ f ih =>
    intro i c h
    simp only [tryCandidates] at h
    split at h
    · exact ih (i + 1) c h
    · rename_i hni
      rw [← Option.some.inj h]
      exact hni

theorem tryCandidates_none_all_taken (existing : List String) (stem ext : String) :
    ∀ (fuel i : Nat), tryCandidates existing stem ext i fuel = none →
      ∀ k < fuel, suffixCandidate stem ext (i + k) ∈ existing := by
  intro fuel
  induction fuel with
  | zero => intro i _ k hk; omega
  | succ f ih =>
    intro i h k hk
    simp only [tryCandidates] at h
    split at h
    · rename_i hin
      cases k with
      | zero => simpa using hin
      | succ k' =>
        have := ih (i + 1) h k' (by omega)
        have harith : i + 1 + k' = i + (k' + 1) := by omega
        rwa [harith] at this
    · exact Option.noConfusion h

theorem exists_free_suffix {existing : List String} (stem ext : String)
    (h : existing.length < 9998) :
    ∃ k < 9998, suffixCandidate stem ext (2 + k) ∉ existing := by
  by_contra hc
  push_neg at hc
  have hsub : ∀ x ∈ (List.range 9998).map (fun k => suffixCandidate stem ext (2 + k)),
      x ∈ existing := by
    intro x hx
    rcases List.mem_map.mp hx with ⟨k, hk, hxe⟩
    exact hxe ▸ hc k (List.mem_range.mp hk)
  have hnd : ((List.range 9998).map (fun k => suffixCandidate stem ext (2 + k))).Nodup := by
    refine (List.nodup_range 9998).map ?_
    intro a b hab
    have := suffixCandidate_inj stem ext hab
    omega
  have hcard :
      ((List.range 9998).map (fun k => suffixCandidate stem ext (2 + k))).toFinset.card = 9998 := by
    rw [List.toFinset_card_of_nodup hnd]
    simp
  have hle :
      ((List.range 9998).map (fun k => suffixCandidate stem ext (2 + k))).toFinset.card ≤
        existing.toFinset.card := by
    apply Finset.card_le_card
    intro x hx
    rw [List.mem_toFinset] at hx ⊢
    exact hsub x hx
  have := List.toFinset_card_le existing
  omega

theorem unique_name_inserts (existing : List String) (proposed : String) :
    (unique_name existing proposed).1 = (unique_name existing proposed).2 :: existing := by
  simp only [unique_name]
  split
  · split <;> rfl
  · rfl

theorem unique_name_fresh {existing : List String} (proposed : String)
    (h : existing.length < 9998) :
    (unique_name existing proposed).2 ∉ existing := by
  simp only [unique_name]
  split
  · rename_i hmem
    cases htc : tryCandidates existing (rpartitionStemExt proposed).1
        (rpartitionStemExt proposed).2 2 9998 with
    | some c =>
      simpa [htc] using tryCandidates_some_fresh existing _ _ 9998 2 c htc
    | none =>
      exfalso
      obtain ⟨k, hk, hfree⟩ :=
        exists_free_suffix (rpartitionStemExt proposed).1 (rpartitionStemExt proposed).2 h
      exact hfree (tryCandidates_none_all_taken existing _ _ 9998 2 htc k hk)
  · rename_i hnm
    simpa using hnm

/-! ## Pipeline loop lemmas -/

theorem process_images_skipped (fetch : FetchEnv) :
    ∀ (urls : List String) (idx : Nat) (used : List String),
      (process_images fetch urls idx used).2.2 =
        urls.filter (fun u => (fetchImage fetch u).isNone) := by
  intro urls
  induction urls with
  | nil => intro idx used; rfl
  | cons u rest ih =>
    intro idx used
    simp only [process_images]
    cases h : fetchImage fetch u with
    | none => simp [h, ih, List.filter_cons]
    | some p =>
      obtain ⟨ct, raw⟩ := p
      simp [h, ih, List.filter_cons]

theorem process_images_accepted_urls (fetch : FetchEnv) :
    ∀ (urls : List String) (idx : Nat) (used : List String),
      (process_images fetch urls idx used).2.1.map DownloadResult.url =
        urls.filter (fun u => (fetchImage fetch u).isSome) := by
  intro urls
  induction urls with
  | nil => intro idx used; rfl
  | cons u rest ih =>
    intro idx used
    simp only [process_images]
    cases h : fetchImage fetch u with
    | none => simp [h, ih, List.filter_cons]
    | some p =>
      obtain ⟨ct, raw⟩ := p
      simp [h, ih, List.filter_cons]

theorem length_filter_pos_neg {α : Type} (p : α → Bool) :
    ∀ l : List α, (l.filter p).length + (l.filter (fun a => ! p a)).length = l.length := by
  intro l
  induction l with
  | nil => rfl
  | cons a t ih =>
    by_cases h : p a
    · simp [List.filter_cons, h]
      omega
    · simp [List.filter_cons, h]
      omega

theorem process_images_congr :
    ∀ (f f' : FetchEnv) (urls : List String) (idx : Nat) (used : List String),
      (∀ u ∈ urls, f u = f' u) →
      process_images f urls idx used = process_images f' urls idx used := by
  intro f f' urls
  induction urls with
  | nil => intro idx used _; rfl
  | cons u rest ih =>
    intro idx used hag
    have hfu : fetchImage f u = fetchImage f' u := by
      unfold fetchImage
      rw [hag u (by simp)]
    simp only [process_images, hfu]
    cases h : fetchImage f' u with
    | none =>
      simp only [ih _ _ (fun v hv => hag v (by simp [hv]))]
    | some p =>
      obtain ⟨ct, raw⟩ := p
      simp only [ih _ _ (fun v hv => hag v (by simp [hv]))]

theorem process_images_names_nodup (fetch : FetchEnv) :
    ∀ (urls : List String) (idx : Nat) (used : List String),
      used.length + urls.length ≤ 9998 →
      ((process_images fetch urls idx used).1.map Prod.fst).Nodup ∧
      ∀ n ∈ (process_images fetch urls idx used).1.map Prod.fst, n ∉ used := by
  intro urls
  induction urls with
  | nil =>
    intro idx used _
    exact ⟨by simp [process_images], by simp [process_images]⟩
  | cons u rest ih =>
    intro idx used hb
    simp only [process_images]
    cases h : fetchImage fetch u with
    | none =>
      exact ih (idx + 1) used (by simp at hb; omega)
    | some p =>
      obtain ⟨ct, raw⟩ := p
      have hins := unique_name_inserts used (imageFilename u idx ct)
      have hfresh : (unique_name used (imageFilename u idx ct)).2 ∉ used := by
        apply unique_name_fresh
        simp at hb
        omega
      have hlen : (unique_name used (imageFilename u idx ct)).1.length + rest.length ≤ 9998 := by
        rw [hins]
        simp at hb ⊢
        omega
      obtain ⟨ihnd, ihnotin⟩ := ih (idx + 1) (unique_name used (imageFilename u idx ct)).1 hlen
      constructor
      · simp only [List.map_cons]
        refine List.nodup_cons.mpr ⟨?_, ihnd⟩
        intro hmem
        have hni := ihnotin _ hmem
        rw [hins] at hni
        exact hni (by simp)
      · intro n hn
        simp only [List.map_cons, List.mem_cons] at hn
        rcases hn with h1 | h2
        · subst h1; exact hfresh
        · intro hnu
          have hni := ihnotin n h2
          rw [hins] at hni
          exact hni (List.mem_cons_of_mem _ hnu)

theorem build_zip_error_transport {fetch : FetchEnv} {page : String} (max : Nat)
    (h : fetch page = .error ()) :
    build_zip_from_images fetch page max = .error () := by
  simp [build_zip_from_images, h]

theorem build_zip_error_status {fetch : FetchEnv} {page : String} {r : PageResponse} (max : Nat)
    (h1 : fetch page = .ok r) (h2 : raisesForStatus r.status = true) :
    build_zip_from_images fetch page max = .error () := by
  simp [build_zip_from_images, h1, h2]

theorem build_zip_ok {fetch : FetchEnv} {page : String} {r : PageResponse} (max : Nat)
    (h1 : fetch page = .ok r) (h2 : raisesForStatus r.status = false) :
    build_zip_from_images fetch page max =
      .ok (process_images fetch ((extract_image_urls r.imgElements r.url).take max) 1 []) := by
  simp only [build_zip_from_images, h1, h2]
  by_cases hie : (extract_image_urls r.imgElements r.url).isEmpty
  · have hnil : extract_image_urls r.imgElements r.url = [] := by
      simpa [List.isEmpty_iff] using hie
    simp [hie, hnil, process_images]
  · simp [hie]

theorem extract_take_nodup (r : PageResponse) (max : Nat) :
    ((extract_image_urls r.imgElements r.url).take max).Nodup :=
  ((List.take_sublist max _).nodup (sorted_strLtB_nodup (sortedDedup_sorted _)))

/-! ## Claim C8: zero extracted URLs is a normal empty result -/

/-- C8: when the page fetch succeeds without a raising status and
extraction yields no URLs, the pipeline returns normally with an empty
archive and empty accepted and skipped lists. -/
theorem no_images_normal_result_spec :
    ∀ (fetch : FetchEnv) (page : String) (max : Nat) (r : PageResponse),
      fetch page = .ok r → raisesForStatus r.status = false →
      extract_image_urls r.imgElements r.url = [] →
      build_zip_from_images fetch page max = .ok ([], [], []) := by
  intro fetch page max r h1 h2 h3
  rw [build_zip_ok max h1 h2, h3]
  simp [process_images]

/-- C8 witness: a concrete page with no image elements. -/
theorem no_images_normal_result_witness :
    build_zip_from_images envNoImg "https://e.test/p" 300 = .ok ([], [], []) :=
  no_images_normal_result_spec envNoImg "https://e.test/p" 300 _ rfl (by decide) (by decide)

/-! ## Claim C7: truncation to `max_images` -/

/-- C7: the pipeline consults the transport only on the first `max_images`
URLs in sorted order — two transports agreeing on the page and on that
prefix give identical results — the record count equals
`min max_images extracted`, and with `max_images = 1` on a page of five
distinct images exactly one URL is attempted. -/
theorem max_images_truncation_spec :
    (∀ (f f' : FetchEnv) (page : String) (max : Nat) (r : PageResponse),
      f page = .ok r → f' page = .ok r → raisesForStatus r.status = false →
      (∀ u ∈ (extract_image_urls r.imgElements r.url).take max, f u = f' u) →
      build_zip_from_images f page max = build_zip_from_images f' page max) ∧
    (∀ (f : FetchEnv) (page : String) (max : Nat) (r : PageResponse)
        (entries : List (String × List Nat)) (acc : List DownloadResult) (sk : List String),
      f page = .ok r → raisesForStatus r.status = false →
      build_zip_from_images f page max = .ok (entries, acc, sk) →
      acc.length + sk.length = min max (extract_image_urls r.imgElements r.url).length) ∧
    (build_zip_from_images envFive "https://f.test/p" 1 =
      .ok ([("i1.png", [9])],
           [{ url := "https://f.test/i1.png", filename := "i1.png", size_bytes := 1,
              content_type := "image/png" }],
           [])) := by
  refine ⟨?_, ?_, by decide⟩
  · intro f f' page max r h1 h1' h2 hag
    rw [build_zip_ok max h1 h2, build_zip_ok max h1' h2]
    rw [process_images_congr f f' _ 1 [] hag]
  · intro f page max r entries acc sk h1 h2 h3
    rw [build_zip_ok max h1 h2] at h3
    have h4 := Option.some.inj (by simpa using h3)
    have hacc : acc.map DownloadResult.url =
        ((extract_image_urls r.imgElements r.url).take max).filter
          (fun u => (fetchImage f u).isSome) := by
      rw [← process_images_accepted_urls f _ 1 [], h4]
    have hsk : sk =
        ((extract_image_urls r.imgElements r.url).take max).filter
          (fun u => (fetchImage f u).isNone) := by
      rw [← process_images_skipped f _ 1 [], h4]
    have hlen : acc.length = (acc.map DownloadResult.url).length := by simp
    have hnone : ((extract_image_urls r.imgElements r.url).take max).filter
          (fun u => (fetchImage f u).isNone) =
        ((extract_image_urls r.imgElements r.url).take max).filter
          (fun u => ! (fetchImage f u).isSome) := by
      apply List.filter_congr
      intro u _
      cases fetchImage f u <;> rfl
    rw [hlen, hacc, hsk, hnone, length_filter_pos_neg, List.length_take]

/-- C7 witness: the prefix-agreement clause instantiated with a transport
that differs from `envFive` outside the attempted prefix. -/
theorem max_images_truncation_witness :
    build_zip_from_images envFive "https://f.test/p" 1 =
      build_zip_from_images
        (fun u => if u = "https://f.test/i5.png" then .error () else envFive u)
        "https://f.test/p" 1 :=
  max_images_truncation_spec.1 envFive _ "https://f.test/p" 1 _ rfl (by decide) (by decide)
    (by decide)

/-! ## Claim C10: every attempted URL lands in exactly one result list -/

/-- C10: with at least one extracted URL, the accepted and skipped lists
partition the attempted prefix: their lengths sum to
`min extracted max_images`, no URL appears in both, every attempted URL
appears in one of them, and no other URL appears at all. -/
theorem attempt_partition_spec :
    ∀ (f : FetchEnv) (page : String) (max : Nat) (r : PageResponse)
      (entries : List (String × List Nat)) (acc : List DownloadResult) (sk : List String),
      f page = .ok r → raisesForStatus r.status = false →
      extract_image_urls r.imgElements r.url ≠ [] →
      build_zip_from_images f page max = .ok (entries, acc, sk) →
      acc.length + sk.length = min (extract_image_urls r.imgElements r.url).length max ∧
      (∀ u ∈ acc.map DownloadResult.url, u ∉ sk) ∧
      (∀ u ∈ (extract_image_urls r.imgElements r.url).take max,
        u ∈ acc.map DownloadResult.url ∨ u ∈ sk) ∧
      (∀ u, u ∈ acc.map DownloadResult.url ∨ u ∈ sk →
        u ∈ (extract_image_urls r.imgElements r.url).take max) := by
  intro f page max r entries acc sk h1 h2 _ h3
  rw [build_zip_ok max h1 h2] at h3
  have h4 := Option.some.inj (by simpa using h3)
  have hacc : acc.map DownloadResult.url =
      ((extract_image_urls r.imgElements r.url).take max).filter
        (fun u => (fetchImage f u).isSome) := by
    rw [← process_images_accepted_urls f _ 1 [], h4]
  have hsk : sk =
      ((extract_image_urls r.imgElements r.url).take max).filter
        (fun u => (fetchImage f u).isNone) := by
    rw [← process_images_skipped f _ 1 [], h4]
  refine ⟨?_, ?_, ?_, ?_⟩
  · have hlen : acc.length = (acc.map DownloadResult.url).length := by simp
    have hnone : ((extract_image_urls r.imgElements r.url).take max).filter
          (fun u => (fetchImage f u).isNone) =
        ((extract_image_urls r.imgElements r.url).take max).filter
          (fun u => ! (fetchImage f u).isSome) := by
      apply List.filter_congr
      intro u _
      cases fetchImage f u <;> rfl
    rw [hlen, hacc, hsk, hnone, length_filter_pos_neg, List.length_take, Nat.min_comm]
  · intro u hu hus
    rw [hacc] at hu
    rw [hsk] at hus
    have h5 := List.of_mem_filter hu
    have h6 := List.of_mem_filter hus
    cases hopt : fetchImage f u
    · rw [hopt] at h5; exact Bool.noConfusion h5
    · rw [hopt] at h6; exact Bool.noConfusion h6
  · intro u hu
    cases hopt : fetchImage f u with
    | none =>
      right
      rw [hsk]
      exact List.mem_filter_of_mem hu (by simp [hopt])
    | some p =>
      left
      rw [hacc]
      exact List.mem_filter_of_mem hu (by simp [hopt])
  · intro u hu
    rcases hu with h | h
    · rw [hacc] at h
      exact List.mem_of_mem_filter h
    · rw [hsk] at h
      exact List.mem_of_mem_filter h

/-- C10 witness: the partition clauses on a concrete run in which the only
attempted URL is skipped for its non-image content-type. -/
theorem attempt_partition_witness :
    ([] : List DownloadResult).length + (["https://s.test/x.png"] : List String).length =
      min (extract_image_urls [⟨[("src", "/x.png")]⟩] "https://s.test/p").length 300 ∧
    (∀ u ∈ ([] : List DownloadResult).map DownloadResult.url,
      u ∉ (["https://s.test/x.png"] : List String)) ∧
    (∀ u ∈ (extract_image_urls [⟨[("src", "/x.png")]⟩] "https://s.test/p").take 300,
      u ∈ ([] : List DownloadResult).map DownloadResult.url ∨
        u ∈ (["https://s.test/x.png"] : List String)) ∧
    (∀ u, u ∈ ([] : List DownloadResult).map DownloadResult.url ∨
        u ∈ (["https://s.test/x.png"] : List String) →
      u ∈ (extract_image_urls [⟨[("src", "/x.png")]⟩] "https://s.test/p").take 300) :=
  attempt_partition_spec envSkipHtml "https://s.test/p" 300
    { url := "https://s.test/p", status := 200, contentType := some "text/html",
      body := [60], imgElements := [⟨[("src", "/x.png")]⟩] }
    [] [] ["https://s.test/x.png"] (by decide) (by decide) (by decide) (by decide)

/-! ## Claim C5: fatal page stage vs per-image failure isolation -/

/-- C5 counterexample: an HTTP 304 page response is outside 200-299, yet
the pipeline does not abort — `raise_for_status` raises only for 4xx/5xx,
so the run returns a normal (empty) result instead of an error. -/
theorem nonfatal_status_cex :
    ¬ (200 ≤ 304 ∧ 304 ≤ 299) ∧
    env304 "https://x.test/p" =
      .ok { url := "https://x.test/p", status := 304, contentType := some "text/html",
            body := [], imgElements := [] } ∧
    build_zip_from_images env304 "https://x.test/p" 300 = .ok ([], [], []) :=
  ⟨by decide, by decide, by decide⟩

/-- C5 (amended): a transport error or a 4xx/5xx status (not every non-2xx
status) on the page fetch aborts the invocation with an error and no
partial result; once the page stage passes, the run always returns a
result, and an individual failing image fetch yields that URL exactly once
in the skipped list, never in the accepted list, without aborting the
batch. -/
theorem fatal_page_amended_spec :
    (∀ (f : FetchEnv) (page : String) (max : Nat),
      f page = .error () → build_zip_from_images f page max = .error ()) ∧
    (∀ (f : FetchEnv) (page : String) (max : Nat) (r : PageResponse),
      f page = .ok r → raisesForStatus r.status = true →
      build_zip_from_images f page max = .error ()) ∧
    (∀ (f : FetchEnv) (page : String) (max : Nat) (r : PageResponse),
      f page = .ok r → raisesForStatus r.status = false →
      ∃ out, build_zip_from_images f page max = .ok out) ∧
    (∀ (f : FetchEnv) (page : String) (max : Nat) (r : PageResponse)
        (entries : List (String × List Nat)) (acc : List DownloadResult) (sk : List String)
        (u : String),
      f page = .ok r → raisesForStatus r.status = false →
      build_zip_from_images f page max = .ok (entries, acc, sk) →
      u ∈ (extract_image_urls r.imgElements r.url).take max →
      fetchImage f u = none →
      u ∈ sk ∧ sk.Nodup ∧ u ∉ acc.map DownloadResult.url) := by
  refine ⟨?_, ?_, ?_, ?_⟩
  · intro f page max h
    exact build_zip_error_transport max h
  · intro f page max r h1 h2
    exact build_zip_error_status max h1 h2
  · intro f page max r h1 h2
    exact ⟨_, build_zip_ok max h1 h2⟩
  · intro f page max r entries acc sk u h1 h2 h3 hu hfail
    rw [build_zip_ok max h1 h2] at h3
    have h4 := Option.some.inj (by simpa using h3)
    have hsk : sk =
        ((extract_image_urls r.imgElements r.url).take max).filter
          (fun u => (fetchImage f u).isNone) := by
      rw [← process_images_skipped f _ 1 [], h4]
    have hacc : acc.map DownloadResult.url =
        ((extract_image_urls r.imgElements r.url).take max).filter
          (fun u => (fetchImage f u).isSome) := by
      rw [← process_images_accepted_urls f _ 1 [], h4]
    refine ⟨?_, ?_, ?_⟩
    · rw [hsk]
      exact List.mem_filter_of_mem hu (by simp [hfail])
    · rw [hsk]
      exact (extract_take_nodup r max).filter _
    · intro hmem
      rw [hacc] at hmem
      have h5 := List.of_mem_filter hmem
      rw [hfail] at h5
      exact Bool.noConfusion h5

/-- C5 witness: a page whose only image returns a non-image body — the URL
is skipped exactly once and the run still returns a result. -/
theorem fatal_page_amended_witness :
    build_zip_from_images (fun _ => .error ()) "https://x.test/p" 300 = .error () ∧
    build_zip_from_images env404 "https://x.test/p" 300 = .error () ∧
    ("https://s.test/x.png" ∈ (["https://s.test/x.png"] : List String) ∧
      (["https://s.test/x.png"] : List String).Nodup ∧
      "https://s.test/x.png" ∉ ([] : List DownloadResult).map DownloadResult.url) :=
  ⟨fatal_page_amended_spec.1 (fun _ => .error ()) "https://x.test/p" 300 rfl,
   fatal_page_amended_spec.2.1 env404 "https://x.test/p" 300
     { url := "https://x.test/p", status := 404, contentType := some "text/html",
       body := [60], imgElements := [] } (by decide) (by decide),
   fatal_page_amended_spec.2.2.2 envSkipHtml "https://s.test/p" 300
     { url := "https://s.test/p", status := 200, contentType := some "text/html",
       body := [60], imgElements := [⟨[("src", "/x.png")]⟩] }
     [] [] ["https://s.test/x.png"] "https://s.test/x.png"
     (by decide) (by decide) (by decide) (by decide) (by decide)⟩

/-! ## Claim C4: the shape of skip records -/

/-- C4 counterexample: a run with one skipped URL returns that bare URL
string as the whole skip record — the skipped list is a list of URL
strings, and no reason is recorded anywhere in the result. -/
theorem skipped_records_claim_cex :
    build_zip_from_images envSkipHtml "https://s.test/p" 300 =
      .ok ([], [], ["https://s.test/x.png"]) := by
  decide

/-- C4 (amended): the skipped result is the ordered list of the failing
URLs themselves — each record is exactly the URL string; the reason for
the skip (non-image content-type, empty body, or fetch error) is not
recorded in the result. -/
theorem skipped_records_amended_spec :
    ∀ (f : FetchEnv) (page : String) (max : Nat) (r : PageResponse)
      (entries : List (String × List Nat)) (acc : List DownloadResult) (sk : List String),
      f page = .ok r → raisesForStatus r.status = false →
      build_zip_from_images f page max = .ok (entries, acc, sk) →
      sk = ((extract_image_urls r.imgElements r.url).take max).filter
        (fun u => (fetchImage f u).isNone) := by
  intro f page max r entries acc sk h1 h2 h3
  rw [build_zip_ok max h1 h2] at h3
  have h4 := Option.some.inj (by simpa using h3)
  rw [← process_images_skipped f _ 1 [], h4]

/-- C4 witness: the amended characterization instantiated on the concrete
skip run. -/
theorem skipped_records_amended_witness :
    (["https://s.test/x.png"] : List String) =
      ((extract_image_urls [⟨[("src", "/x.png")]⟩] "https://s.test/p").take 300).filter
        (fun u => (fetchImage envSkipHtml u).isNone) :=
  skipped_records_amended_spec envSkipHtml "https://s.test/p" 300
    { url := "https://s.test/p", status := 200, contentType := some "text/html",
      body := [60], imgElements := [⟨[("src", "/x.png")]⟩] }
    [] [] ["https://s.test/x.png"] (by decide) (by decide) (by decide)

/-! ## Claim C2: `unique_name` freshness and archive-name uniqueness -/

theorem tryCandidates_none_of_all {existing : List String} {stem ext : String} :
    ∀ (fuel i : Nat), (∀ k < fuel, suffixCandidate stem ext (i + k) ∈ existing) →
      tryCandidates existing stem ext i fuel = none := by
  intro fuel
  induction fuel with
  | zero => intro i _; rfl
  | succ f ih =>
    intro i h
    simp only [tryCandidates]
    rw [if_pos (by simpa using h 0 (by omega))]
    apply ih
    intro k hk
    have harith : i + 1 + k = i + (k + 1) := by omega
    rw [harith]
    exact h (k + 1) (by omega)

theorem cexRegistry_all_suffixes :
    ∀ k < 9998, suffixCandidate "a" "" (2 + k) ∈ cexRegistry := by
  intro k hk
  refine List.mem_cons_of_mem _ (List.mem_cons_of_mem _ (List.mem_map.mpr ⟨k, ?_, ?_⟩))
  · exact List.mem_range.mpr hk
  · rw [Nat.add_comm 2 k]
    apply String.ext
    simp [suffixCandidate, String.data_append]

theorem unique_name_digest_case {existing : List String} {proposed stem ext : String}
    (hmem : proposed ∈ existing) (hrp : rpartitionStemExt proposed = (stem, ext))
    (hnone : tryCandidates existing stem ext 2 9998 = none) :
    (unique_name existing proposed).2 = digestCandidate stem ext proposed := by
  simp only [unique_name]
  rw [if_pos hmem, hrp]
  simp only [hnone]

/-- C2 counterexample: on a registry holding the proposal `"a"`, all 9998
suffix forms `a_2` .. `a_9999` and the digest form `a_ca978112ca`,
`unique_name` returns the digest form even though it is already present —
the digest fallback is inserted without any membership check, so the
returned name is not fresh and the claim's universally quantified
freshness fails. -/
theorem unique_name_claim_cex :
    (unique_name cexRegistry "a").2 = "a_ca978112ca" ∧
    (unique_name cexRegistry "a").2 ∈ cexRegistry := by
  have hmem : ("a" : String) ∈ cexRegistry := List.mem_cons_self _ _
  have hrp : rpartitionStemExt "a" = ("a", "") := by decide
  have hnone : tryCandidates cexRegistry "a" "" 2 9998 = none :=
    tryCandidates_none_of_all 9998 2 cexRegistry_all_suffixes
  have hval := unique_name_digest_case hmem hrp hnone
  have hdig : digestCandidate "a" "" "a" = "a_ca978112ca" := by decide
  refine ⟨hval.trans hdig, ?_⟩
  rw [hval, hdig]
  exact List.mem_cons_of_mem _ (List.mem_cons_self _ _)

/-- C2 (amended): every name `unique_name` returns is inserted into the
registry; whenever the registry has fewer than 9998 names the returned
name is fresh (the digest fallback, the one unchecked path, requires all
9998 suffix forms to be present and is then unreachable); consequently the
archive entry names of one pipeline invocation are pairwise distinct
whenever `max_images ≤ 9998`. -/
theorem unique_name_amended_spec :
    (∀ (existing : List String) (proposed : String),
      (unique_name existing proposed).1 = (unique_name existing proposed).2 :: existing) ∧
    (∀ (existing : List String) (proposed : String), existing.length < 9998 →
      (unique_name existing proposed).2 ∉ existing) ∧
    (∀ (f : FetchEnv) (page : String) (max : Nat) (r : PageResponse)
        (entries : List (String × List Nat)) (acc : List DownloadResult) (sk : List String),
      f page = .ok r → raisesForStatus r.status = false → max ≤ 9998 →
      build_zip_from_images f page max = .ok (entries, acc, sk) →
      (entries.map Prod.fst).Nodup) := by
  refine ⟨unique_name_inserts, fun existing proposed h => unique_name_fresh proposed h, ?_⟩
  intro f page max r entries acc sk h1 h2 hmax h3
  rw [build_zip_ok max h1 h2] at h3
  have h4 := Option.some.inj (by simpa using h3)
  have hb : ([] : List String).length +
      ((extract_image_urls r.imgElements r.url).take max).length ≤ 9998 := by
    have := List.length_take_le max (extract_image_urls r.imgElements r.url)
    simp
    omega
  have hnd := (process_images_names_nodup f _ 1 [] hb).1
  rw [h4] at hnd
  exact hnd

/-- C2 witness: insertion and freshness on a small registry, and archive
name uniqueness on the concrete two-image run. -/
theorem unique_name_amended_witness :
    (unique_name ["a.png"] "a.png").1 = (unique_name ["a.png"] "a.png").2 :: ["a.png"] ∧
    (unique_name ["a.png"] "a.png").2 ∉ (["a.png"] : List String) ∧
    (([("a.png", [1, 2, 3]), ("b-640.jpg", [4, 5])] :
        List (String × List Nat)).map Prod.fst).Nodup :=
  ⟨unique_name_amended_spec.1 ["a.png"] "a.png",
   unique_name_amended_spec.2.1 ["a.png"] "a.png" (by decide),
   unique_name_amended_spec.2.2 envTwoOk "https://x.test/p" 300 pageTwoImgs
     [("a.png", [1, 2, 3]), ("b-640.jpg", [4, 5])]
     [{ url := "https://x.test/a.png", filename := "a.png", size_bytes := 3,
        content_type := "image/png" },
      { url := "https://x.test/b-640.jpg", filename := "b-640.jpg", size_bytes := 2,
        content_type := "image/jpeg" }]
     [] (by decide) (by decide) (by decide) (by decide)⟩
